import Mathlib

/-!
# Verification of the SPNS HiveMind core

A shallow embedding, in Lean 4, of the parts of the Session Push Notification
Server (oxen-io/session-push-notification-server) that its specification makes
quantified claims about, together with proofs (or refutations) of those claims.

Conventions used throughout the embedding:

* C++ `uint64_t` arithmetic is modelled as `Nat` with explicit `% 2^64`
  wrapping where the source relies on unsigned overflow.
* C++ `int64_t` timestamps are modelled as `Int`.
* Fixed-width byte strings (account ids, Ed25519 keys, signatures, subaccount
  tags, Blake2b hashes) are opaque to all the verified logic: the code only
  ever compares them for equality, so they are modelled as `Nat` identifiers.
* Ed25519 signature verification (libsodium) is a black box to the logic being
  verified; where a code path branches on "signature valid?" the embedding
  takes that branch outcome as a `Bool` argument.
* Code that throws `std::invalid_argument` / returns error replies is
  modelled with `Except String _` / explicit outcome types.
* `std::unordered_set` is modelled as a `List` with membership-guarded
  insertion: the code only relies on membership and insert-if-absent.
-/

namespace Spns

/-! ## Subscription (spns/hive/subscription.{hpp,cpp})

The `Subscription` record: an optional subaccount credential (opaque tag
identity), the monitored namespaces, the want-data flag, and the signature
with its timestamp.  The signature bytes are opaque (`Nat`). -/

structure Subscription where
  subaccount : Option Nat
  namespaces : List Int
  want_data : Bool
  sig_ts : Int
  sig : Nat
deriving DecidableEq, Repr

/-- The namespace validation loop of `Subscription::Subscription`
(subscription.cpp): walk adjacent pairs; report "not sorted" when a pair
decreases, "duplicates" when a pair is equal.  Returns the first error, or
`none` when the list is strictly ascending (or has fewer than two
elements). -/
def check_namespaces : List Int → Option String
  | a :: b :: rest =>
    if a > b then some "Subscription: namespaces are not sorted numerically"
    else if a = b then some "Subscription: namespaces contains duplicates"
    else check_namespaces (b :: rest)
  | _ => none

/-- `Subscription::Subscription` (subscription.cpp): namespace validation,
then the `sig_ts` checks against `now` (seconds), then — only when
`_skip_validation` is false — the MONITOR signature verification, whose
libsodium outcome is abstracted as the boolean `sig_ok`. -/
def mkSubscription (now : Int) (sig_ok : Bool) (subaccount : Option Nat)
    (namespaces : List Int) (want_data : Bool) (sig_ts : Int) (sig : Nat)
    (skip_validation : Bool) : Except String Subscription :=
  if namespaces = [] then .error "Subscription: namespaces missing or empty"
  else match check_namespaces namespaces with
  | some e => .error e
  | none =>
    if sig_ts = 0 then .error "Subscription: signature timestamp is missing"
    else if sig_ts ≤ now - 14 * 24 * 60 * 60 then
      .error "Subscription: sig_ts timestamp is too old"
    else if sig_ts ≥ now + 24 * 60 * 60 then
      .error "Subscription: sig_ts timestamp is too far in the future"
    else if ¬skip_validation ∧ ¬sig_ok then
      .error "Subscription: signature validation failed"
    else .ok ⟨subaccount, namespaces, want_data, sig_ts, sig⟩

/-- `Subscription::is_same` (subscription.hpp): equality of the
`(subaccount, namespaces, want_data)` triple. -/
def Subscription.is_same (a b : Subscription) : Bool :=
  a.subaccount = b.subaccount ∧ a.namespaces = b.namespaces ∧
    a.want_data = b.want_data

/-- `Subscription::is_newer` (subscription.hpp): strictly newer signature
timestamp. -/
def Subscription.is_newer (a b : Subscription) : Bool := a.sig_ts > b.sig_ts

/-- The namespaces walk of `Subscription::covers` (subscription.cpp): the
two-pointer loop over the sorted sequences.  `i` always advances; `j`
advances exactly when the heads are equal. -/
def ns_covers : List Int → List Int → Bool
  | _, [] => true
  | [], _ :: _ => false
  | a :: as, b :: bs =>
    if a > b then false
    else if a = b then ns_covers as bs
    else ns_covers as (b :: bs)

/-- `Subscription::covers` (subscription.cpp): same subaccount, no want-data
regression (`other.want_data && !want_data` fails), then the namespaces
walk. -/
def Subscription.covers (s o : Subscription) : Bool :=
  if s.subaccount ≠ o.subaccount then false
  else if o.want_data ∧ ¬s.want_data then false
  else ns_covers s.namespaces o.namespaces

/-! ## In-memory subscriber list maintenance (hivemind.cpp)

Both `HiveMind::add_subscription` (the `subscribers_[pubkey]` update under the
core mutex) and `HiveMind::load_saved_subscriptions` (the per-row dedupe
against `subscribers_`) run the same walk over the account's subscription
vector: find the first `is_same` entry; when found, overwrite its `sig` and
`sig_ts` iff the incoming timestamp is strictly newer, and stop; when no
entry matches, append the incoming subscription at the end. -/

def mem_upsert : List Subscription → Subscription → List Subscription
  | [], sub => [sub]
  | e :: rest, sub =>
    if e.is_same sub then
      (if sub.sig_ts > e.sig_ts then
        { e with sig := sub.sig, sig_ts := sub.sig_ts } else e) :: rest
    else e :: mem_upsert rest sub

/-! ## Notification dedup filter (HiveMind::on_message_notification)

The two-generation dedup filter: `filter_` and `filter_rotate_` hold Blake2b
fingerprints `blake2b(service, svcid, hash)`.  Since the code only ever
compares fingerprints of notifications for the *same* `(service, svcid,
hash)` triple, the fingerprint is modelled as an opaque `Nat` (hash
collisions between distinct triples are outside the model).  Time is the
monotonic clock in abstract ticks (`Nat`). -/

structure FilterState where
  filter : List Nat
  rotate : List Nat
  rotateAt : Nat
deriving DecidableEq, Repr

/-- Processing of one matched subscription row inside
`HiveMind::on_message_notification` (hivemind.cpp): first the lazy filter
rotation (`now >= filter_rotate_time_` moves `filter_` into `filter_rotate_`,
clears `filter_`, and re-arms the rotation timer at `now + filter_lifetime`);
then the dedup check — skip when the fingerprint is in `filter_rotate_` or
already in `filter_` (insertion happens as part of the check); then the
service-connection lookup (`registered`), and only if the service is
registered is `notifier.push` sent.  Returns the new state, whether a push
was sent, and whether a rotation occurred. -/
def notif_step (lifetime now fp : Nat) (registered : Bool) (s : FilterState) :
    FilterState × Bool × Bool :=
  let rotated := decide (s.rotateAt ≤ now)
  let s₁ : FilterState :=
    if s.rotateAt ≤ now then ⟨[], s.filter, now + lifetime⟩ else s
  if fp ∈ s₁.rotate ∨ fp ∈ s₁.filter then (s₁, false, rotated)
  else
    let s₂ : FilterState := { s₁ with filter := fp :: s₁.filter }
    if registered then (s₂, true, rotated) else (s₂, false, rotated)

/-- A stream of notifications for one fixed `(service, svcid, hash)` triple:
each event is its arrival time and whether the target service is registered
at that moment.  Returns the final filter state, the number of
`notifier.push` sends for the triple, and the number of filter rotations
that occurred while processing the stream. -/
def notif_run (lifetime fp : Nat) : List (Nat × Bool) → FilterState →
    FilterState × Nat × Nat
  | [], s => (s, 0, 0)
  | (t, reg) :: evs, s =>
    let r := notif_step lifetime t fp reg s
    let rest := notif_run lifetime fp evs r.1
    (rest.1, (if r.2.1 then 1 else 0) + rest.2.1,
      (if r.2.2 then 1 else 0) + rest.2.2)

/-! ## Swarm selection (spns/swarmpubkey.cpp)

`uint64_t` values as `Nat` below `2^64`; unsigned subtraction wraps
explicitly. -/

def R64 : Nat := 2 ^ 64

def INVALID_SWARM_ID : Nat := 2 ^ 64 - 1

/-- Unsigned 64-bit subtraction `a - b` (wrapping), for `a, b < 2^64`. -/
def usub (a b : Nat) : Nat := (a + R64 - b) % R64

/-- `std::lower_bound(swarm_ids.begin(), swarm_ids.end(), swarm_space)` and
the wrap-around in `SwarmPubkey::update_swarm`: the first element `≥ x`, or
the first element of the list when all are `< x` (`right_it == end` wraps to
`begin`).  `lower_bound` requires its input partitioned by `< x`; on a sorted
list that is the `dropWhile` split used here. -/
def swarm_right (ids : List Nat) (x : Nat) : Nat :=
  (ids.dropWhile (fun e => decide (e < x))).headD (ids.headD 0)

/-- The `left_it` computation of `SwarmPubkey::update_swarm`: the element
just before `right_it`, wrapping to the last element when `right_it` is the
first (either because the first element is already `≥ x`, or because
`lower_bound` hit `end` and wrapped). -/
def swarm_left (ids : List Nat) (x : Nat) : Nat :=
  let below := ids.takeWhile (fun e => decide (e < x))
  let above := ids.dropWhile (fun e => decide (e < x))
  if below.isEmpty || above.isEmpty then ids.getLastD 0 else below.getLastD 0

/-- The selection in `SwarmPubkey::update_swarm` (swarmpubkey.cpp): empty
list gives the `INVALID_SWARM_ID` sentinel; a single element is returned
as-is; otherwise compare `dright = *right_it - swarm_space` against
`dleft = swarm_space - *left_it` (both wrapping `u64` subtractions) and pick
`*right_it` exactly when `dright < dleft`. -/
def update_swarm_closest (swarm_ids : List Nat) (swarm_space : Nat) : Nat :=
  match swarm_ids with
  | [] => INVALID_SWARM_ID
  | [only] => only
  | _ :: _ :: _ =>
    let right := swarm_right swarm_ids swarm_space
    let left := swarm_left swarm_ids swarm_space
    if usub right swarm_space < usub swarm_space left then right else left

/-- Circular distance in the `u64` swarm space: the smaller of the two
wrapping differences. -/
def circular_dist (a b : Nat) : Nat := min (usub a b) (usub b a)

/-- The mutable state of a `SwarmPubkey` relevant to swarm tracking:
`swarm_space` (derived from the account id, fixed) and the currently stored
`swarm`. -/
structure SwarmPubkey where
  swarm_space : Nat
  swarm : Nat
deriving DecidableEq, Repr

/-- `SwarmPubkey::update_swarm` (swarmpubkey.cpp): recompute the closest
swarm id; store it and return `true` iff it differs from the stored one. -/
def SwarmPubkey.update_swarm (p : SwarmPubkey) (ids : List Nat) :
    SwarmPubkey × Bool :=
  let closest := update_swarm_closest ids p.swarm_space
  if closest ≠ p.swarm then ({ p with swarm := closest }, true) else (p, false)

/-! ## SNode resubscribe queue (spns/hive/snode.cpp)

`SNode::next_` is a deque of `(std::optional<SwarmPubkey>, system_time)`
pairs; accounts are opaque `Nat` identifiers and the wall clock is `Nat`
seconds with the unix epoch at `0`. -/

structure QEntry where
  acct : Option Nat
  due : Nat
deriving DecidableEq, Repr

def SUBS_REQUEST_LIMIT : Nat := 5000000

def RESUBSCRIBE_MIN : Nat := 45 * 60

def RESUBSCRIBE_MAX : Nat := 55 * 60

/-- Ordering of queue entries by due time (`a.second < b.second` is the
comparator used by the `std::sort`/`is_sorted` calls in
`SNode::check_subs`; sorted ascending means non-decreasing dues). -/
def qle (a b : QEntry) : Prop := a.due ≤ b.due

instance : DecidableRel qle := fun a b => Nat.decLe a.due b.due

instance : IsTotal QEntry qle := ⟨fun a b => Nat.le_total a.due b.due⟩

instance : IsTrans QEntry qle := ⟨fun _ _ _ h h' => Nat.le_trans h h'⟩

/-- The queue is sorted ascending by due time. -/
def DueSorted (l : List QEntry) : Prop := List.Pairwise qle l

instance (l : List QEntry) : Decidable (DueSorted l) :=
  List.instDecidablePairwise l

/-- The drain loop of `SNode::check_subs` (snode.cpp): pop from the front of
`next_` while the encoded request stays below `SUBS_REQUEST_LIMIT`, stopping
at the first entry due in the future (or, in `fast` mode, at the first entry
not due at the epoch); skip lazily-deleted entries and accounts absent from
`all_subs`; for a surviving account append one bencoded dict per
subscription to the request (the exact bencoding is abstracted by
`encSize`, the byte size each subscription's dict contributes — always
positive for the real encoder, which emits at least the `t` key), then
re-push the account at the tail with `due = now + delay` where `delay` is
the `std::uniform_int_distribution{RESUBSCRIBE_MIN, RESUBSCRIBE_MAX}` draw,
modelled by `rng` indexed by the number of accounts re-pushed so far.

Returns `(remaining front of the queue, entries appended at the tail,
request body size)`; the C++ deque after the loop is their concatenation.
The appended tail is carried separately: the C++ loop never examines
re-pushed entries because their due time `now + delay` exceeds `now`
(every real delay is at least 45 minutes), which makes the front-recursion
below equivalent to the in-place deque walk. -/
def check_subs_drain (fast : Bool) (now : Nat)
    (allSubs : Nat → Option (List Subscription))
    (encSize : Subscription → Nat) (rng : Nat → Nat) :
    List QEntry → Nat → List QEntry → Nat → List QEntry × List QEntry × Nat
  | [], size, app, _ => ([], app, size)
  | e :: rest, size, app, n =>
    if ¬size < SUBS_REQUEST_LIMIT then (e :: rest, app, size)
    else if e.due > now then (e :: rest, app, size)
    else if fast ∧ e.due > 0 then (e :: rest, app, size)
    else match e.acct with
      | none => check_subs_drain fast now allSubs encSize rng rest size app n
      | some a => match allSubs a with
        | none => check_subs_drain fast now allSubs encSize rng rest size app n
        | some subs =>
          check_subs_drain fast now allSubs encSize rng rest
            (size + (subs.map encSize).sum)
            (app ++ [⟨some a, now + rng n⟩]) (n + 1)

/-- `SNode::check_subs` (snode.cpp), tracking its effect on the `next_`
queue.  When not connected, the function only (maybe) initiates a
connection and leaves the queue alone.  Otherwise it drains the queue into
a request body that starts as the 1-byte list opener `"l"`; if nothing was
encoded (`req_body.size() == 1`) it returns before the re-sort, and
otherwise it re-sorts the suffix starting at
`std::partition_point(…, due < now + RESUBSCRIBE_MIN)` — which, on the
sorted untouched part the accompanying `assert` documents, is the
`takeWhile`/`dropWhile` split used here.  `std::sort` is modelled by
insertion sort (any permutation sorted by the same comparator). -/
def check_subs_queue (connected _ini fast : Bool) (now : Nat)
    (allSubs : Nat → Option (List Subscription))
    (encSize : Subscription → Nat) (rng : Nat → Nat)
    (queue : List QEntry) : List QEntry :=
  if connected = false then queue
  else
    let r := check_subs_drain fast now allSubs encSize rng queue 1 [] 0
    if r.2.2 = 1 then r.1 ++ r.2.1
    else
      let stable := r.1.takeWhile (fun e => decide (e.due < now + RESUBSCRIBE_MIN))
      let tail := r.1.dropWhile (fun e => decide (e.due < now + RESUBSCRIBE_MIN)) ++ r.2.1
      stable ++ List.insertionSort qle tail

/-! ## remove_subscription (HiveMind::remove_subscription, hivemind.cpp) -/

def UNSUBSCRIBE_GRACE : Int := 24 * 60 * 60

/-- One row of the `subscriptions` table, keyed by
`(account, service, svcid)` (the columns the `DELETE` matches on). -/
structure SubRow where
  account : Nat
  service : String
  svcid : String
deriving DecidableEq, Repr

/-- The HiveMind state `remove_subscription` can observe: the DB table and
the in-memory `subscribers_` map (an association list from accounts to
their subscription vectors). -/
structure HiveState where
  db : List SubRow
  subscribers : List (Nat × List Subscription)
deriving DecidableEq, Repr

/-- `HiveMind::remove_subscription` (hivemind.cpp): reject a `sig_ts`
outside `now ± UNSUBSCRIBE_GRACE`; verify the UNSUBSCRIBE signature
(libsodium outcome abstracted as `sig_ok`, throwing on failure); `DELETE
FROM subscriptions WHERE account AND service AND svcid`; return whether any
row was deleted.  The in-memory `subscribers` map is deliberately not
touched. -/
def remove_subscription (now : Int) (sig_ok : Bool) (account : Nat)
    (service svcid : String) (sig_ts : Int) (st : HiveState) :
    Except String (HiveState × Bool) :=
  if sig_ts < now - UNSUBSCRIBE_GRACE ∨ sig_ts > now + UNSUBSCRIBE_GRACE then
    .error "Invalid signature: sig_ts is too far from current time"
  else if ¬sig_ok then .error "Invalid signature"
  else
    let keep := st.db.filter fun r =>
      ¬(r.account = account ∧ r.service = service ∧ r.svcid = svcid)
    .ok ({ st with db := keep }, decide (keep.length < st.db.length))

/-! ## Notifier validation callback (HiveMind::on_notifier_validation) -/

def SERVICE_ID_MIN_SIZE : Nat := 32

def SERVICE_ID_MAX_SIZE : Nat := 999

def SERVICE_DATA_MAX_SIZE : Nat := 99999

/-- Outcome of the validation callback for a subscribe request: either a
reply (`code` as in the JSON response, and whether `add_subscription` was
reached), or the undefined C++ behaviour of dereferencing the disengaged
`service_data` optional. -/
inductive NotifierOutcome where
  | reply (code : Int) (proceeded : Bool)
  | undefined_deref
deriving DecidableEq, Repr

/-- The success path of `HiveMind::on_notifier_validation` (hivemind.cpp)
for a *subscribe* (`unsub` empty), after transport success.  The notifier
reply is `data = [status, service_id, service_data?]`; the `parse_int` of
`data[0]` is abstracted as the already-parsed `code`, and `rest` is
`data[1..]`.  Exceptions thrown in the body are caught by the surrounding
handler and reported as code `4` (`SUBSCRIBE::ERROR`).  Note the
`service_data` handling: the length bound is evaluated via
`service_data->size()` *before* checking that the optional is engaged, so a
2-part success reply reaches `operator->` on a disengaged
`std::optional` — undefined behaviour, modelled explicitly. -/
def on_notifier_validation_sub (code : Int) (rest : List String) :
    NotifierOutcome :=
  if rest.length + 1 < 2 ∨ rest.length + 1 > 3 then .reply 4 false
  else match rest with
  | [] => .reply 4 false
  | service_id :: extra =>
    if code = 0 then
      if service_id.length < SERVICE_ID_MIN_SIZE ∨
          service_id.length > SERVICE_ID_MAX_SIZE then .reply 4 false
      else match extra.head? with
        | some sd =>
          if sd.length > SERVICE_DATA_MAX_SIZE then .reply 4 false
          else .reply 0 true
        | none => .undefined_deref
    else .reply code false

/-! ## Helper lemmas -/

/-- The namespace loop accepts exactly the strictly ascending lists. -/
theorem check_namespaces_eq_none (ns : List Int) :
    check_namespaces ns = none ↔ List.Chain' (· < ·) ns := by
  induction ns with
  | nil => simp [check_namespaces]
  | cons a tail ih =>
    cases tail with
    | nil => simp [check_namespaces]
    | cons b rest =>
      by_cases hgt : a > b
      · simp only [check_namespaces, if_pos hgt, List.chain'_cons]
        constructor
        · intro h; cases h
        · intro h; omega
      · by_cases heq : a = b
        · simp only [check_namespaces, if_neg hgt, if_pos heq, List.chain'_cons]
          constructor
          · intro h; cases h
          · intro h; omega
        · have hlt : a < b := lt_of_le_of_ne (not_lt.mp hgt) heq
          simp only [check_namespaces, if_neg hgt, if_neg heq, List.chain'_cons, ih]
          exact (and_iff_right hlt).symm

/-- Full characterization of subscription-construction success: valid
namespaces, nonzero `sig_ts` inside the strict window, and — unless
`_skip_validation` — a verifying signature. -/
theorem mkSubscription_isOk (now : Int) (sig_ok : Bool) (sa : Option Nat)
    (ns : List Int) (wd : Bool) (ts : Int) (sig : Nat) (skip : Bool) :
    (mkSubscription now sig_ok sa ns wd ts sig skip).isOk ↔
      ns ≠ [] ∧ List.Chain' (· < ·) ns ∧ ts ≠ 0 ∧
      now - 14 * 24 * 60 * 60 < ts ∧ ts < now + 24 * 60 * 60 ∧
      (skip = true ∨ sig_ok = true) := by
  by_cases hns : ns = []
  · simp [mkSubscription, hns, Except.isOk, Except.toBool]
  · cases h : check_namespaces ns with
    | some e =>
      have hch : ¬ List.Chain' (· < ·) ns := by
        rw [← check_namespaces_eq_none, h]; simp
      simp [mkSubscription, if_neg hns, h, Except.isOk, Except.toBool, hch]
    | none =>
      have hch : List.Chain' (· < ·) ns := (check_namespaces_eq_none ns).mp h
      simp only [mkSubscription, if_neg hns, h]
      split_ifs with h1 h2 h3 h4
      · simp only [Except.isOk, Except.toBool, Bool.false_eq_true, false_iff]
        rintro ⟨-, -, hts, -⟩
        exact hts h1
      · simp only [Except.isOk, Except.toBool, Bool.false_eq_true, false_iff]
        rintro ⟨-, -, -, hw, -⟩
        omega
      · simp only [Except.isOk, Except.toBool, Bool.false_eq_true, false_iff]
        rintro ⟨-, -, -, -, hw, -⟩
        omega
      · simp only [Except.isOk, Except.toBool, Bool.false_eq_true, false_iff]
        rintro ⟨-, -, -, -, -, hc⟩
        rcases hc with hc | hc
        · exact h4.1 hc
        · exact h4.2 hc
      · constructor
        · intro _
          refine ⟨hns, hch, h1, by omega, by omega, ?_⟩
          by_cases hs : skip = true
          · exact Or.inl hs
          · by_cases hk : sig_ok = true
            · exact Or.inr hk
            · exact absurd ⟨hs, hk⟩ h4
        · intro _
          rfl

/-! ## C10 — update_swarm change reporting and idempotence -/

/-- C10: for every `SwarmPubkey` `p` and swarm-id list `ids`,
`p.update_swarm ids` returns `true` exactly when the stored `swarm` field
changes, and an immediately repeated call returns `false` and leaves the
state unchanged. -/
theorem update_swarm_change_and_idempotent (p : SwarmPubkey) (ids : List Nat) :
    ((p.update_swarm ids).2 = true ↔ (p.update_swarm ids).1.swarm ≠ p.swarm) ∧
    (p.update_swarm ids).1.update_swarm ids = ((p.update_swarm ids).1, false) := by
  unfold SwarmPubkey.update_swarm
  by_cases h : update_swarm_closest ids p.swarm_space ≠ p.swarm
  · simp [h]
  · push_neg at h
    simp [h]

/-! ## C9 — `_skip_validation` skips only the signature check -/

/-- C9: constructing a `Subscription` with `_skip_validation = true` is
independent of the signature-verification outcome, yet still fails exactly
on an empty, unsorted or duplicate-containing namespaces list and on a
`sig_ts` outside the accepted window (or missing); so rows loaded at
startup (which pass `_skip_validation = true`) remain subject to those
checks. -/
theorem skip_validation_scope (now : Int) (sig_ok : Bool) (sa : Option Nat)
    (ns : List Int) (wd : Bool) (ts : Int) (sig : Nat) :
    mkSubscription now sig_ok sa ns wd ts sig true
      = mkSubscription now true sa ns wd ts sig true ∧
    ((mkSubscription now sig_ok sa ns wd ts sig true).isOk ↔
      ns ≠ [] ∧ List.Chain' (· < ·) ns ∧ ts ≠ 0 ∧
        now - 14 * 24 * 60 * 60 < ts ∧ ts < now + 24 * 60 * 60) := by
  constructor
  · simp [mkSubscription]
  · rw [mkSubscription_isOk]
    constructor
    · rintro ⟨a, b, c, d, e, -⟩
      exact ⟨a, b, c, d, e⟩
    · rintro ⟨a, b, c, d, e⟩
      exact ⟨a, b, c, d, e, Or.inl rfl⟩

/-! ## C5 — subscription timestamp window -/

/-- C5 counterexample: `sig_ts = now − 14d` lies inside the claimed closed
window `[now−14d, now+24h]`, yet construction rejects it ("too old"): the
code's window is strict at both ends. -/
theorem subscription_window_cex :
    (1700000000 - 14 * 24 * 60 * 60 ≤ (1698790400 : Int)) ∧
    ((1698790400 : Int) ≤ 1700000000 + 24 * 60 * 60) ∧
    mkSubscription 1700000000 true none [1] false 1698790400 0 false
      = .error "Subscription: sig_ts timestamp is too old" :=
  ⟨by norm_num, by norm_num, rfl⟩

/-- C5 (amended): with valid namespaces, a verifying signature and a
nonzero `sig_ts`, construction accepts `sig_ts` exactly when
`now − 14d < sig_ts < now + 24h` (both bounds strict); everything outside
that open window is rejected on ingress. -/
theorem subscription_ts_window (now ts : Int) (sa : Option Nat)
    (ns : List Int) (wd : Bool) (sig : Nat)
    (hns : ns ≠ []) (hsorted : List.Chain' (· < ·) ns) (hts : ts ≠ 0) :
    (mkSubscription now true sa ns wd ts sig false).isOk ↔
      now - 14 * 24 * 60 * 60 < ts ∧ ts < now + 24 * 60 * 60 := by
  rw [mkSubscription_isOk]
  constructor
  · rintro ⟨-, -, -, d, e, -⟩
    exact ⟨d, e⟩
  · rintro ⟨d, e⟩
    exact ⟨hns, hsorted, hts, d, e, Or.inr rfl⟩

/-- Witness for C5 (amended) at `now = sig_ts = 1700000000`. -/
theorem subscription_ts_window_witness :
    (mkSubscription 1700000000 true none [1] false 1700000000 0 false).isOk = true := by
  have h := subscription_ts_window 1700000000 1700000000 none [1] false 0
    (by simp) (by simp) (by simp)
  exact h.mpr (by norm_num)

/-! ## C6 — notifier validation of a code-0 subscribe reply -/

set_option maxRecDepth 8000 in
/-- C6: on a code-0 subscribe reply, a `service_id` of length outside
`[32, 999]` is rejected (code 4), and a 3-part reply with a small
`service_data` proceeds to `add_subscription`; but a 2-part success reply —
which the spec says is accepted with the length bound applied only when
`service_data` is present — instead dereferences the disengaged
`service_data` optional (`service_data->size()` with `data.size() == 2`),
which is undefined behaviour in the C++ source. -/
theorem notifier_validation_service_data :
    on_notifier_validation_sub 0 ["0123456789abcdef0123456789abcdef"]
      = .undefined_deref ∧
    on_notifier_validation_sub 0 ["short", "data"] = .reply 4 false ∧
    on_notifier_validation_sub 0 [String.mk (List.replicate 1000 'a'), "data"]
      = .reply 4 false ∧
    on_notifier_validation_sub 0 ["0123456789abcdef0123456789abcdef", "data"]
      = .reply 0 true := by
  exact ⟨by decide, by decide, by decide, by decide⟩

/-! ## C7 — remove_subscription frame property -/

/-- C7: on every successfully verified unsubscribe, `remove_subscription`
leaves the in-memory `subscribers` map unchanged (it only deletes the DB
row keyed by account, service and service id) and returns `true` exactly
when a row was removed. -/
theorem remove_subscription_frame (now : Int) (sig_ok : Bool) (account : Nat)
    (service svcid : String) (sig_ts : Int) (st st' : HiveState)
    (removed : Bool)
    (h : remove_subscription now sig_ok account service svcid sig_ts st
          = .ok (st', removed)) :
    st'.subscribers = st.subscribers ∧
    (removed = true ↔ ∃ r ∈ st.db,
      r.account = account ∧ r.service = service ∧ r.svcid = svcid) := by
  unfold remove_subscription at h
  split_ifs at h
  simp only [Except.ok.injEq, Prod.mk.injEq] at h
  obtain ⟨hst, hrem⟩ := h
  constructor
  · rw [← hst]
  · rw [← hrem, decide_eq_true_iff, List.length_filter_lt_length_iff_exists]
    constructor
    · rintro ⟨r, hr, hp⟩
      refine ⟨r, hr, ?_⟩
      simpa using hp
    · rintro ⟨r, hr, hp⟩
      refine ⟨r, hr, ?_⟩
      simpa using hp

set_option maxRecDepth 8000 in
/-- Witness for C7: a concrete verified unsubscribe that removes the only
matching row and leaves `subscribers` untouched. -/
theorem remove_subscription_frame_witness :
    (⟨[], [(5, [])]⟩ : HiveState).subscribers
      = (⟨[⟨5, "apns", "dev1"⟩], [(5, [])]⟩ : HiveState).subscribers ∧
    (true = true ↔ ∃ r ∈ (⟨[⟨5, "apns", "dev1"⟩], [(5, [])]⟩ : HiveState).db,
      r.account = 5 ∧ r.service = "apns" ∧ r.svcid = "dev1") :=
  remove_subscription_frame 1000000 true 5 "apns" "dev1" 1000000
    ⟨[⟨5, "apns", "dev1"⟩], [(5, [])]⟩ ⟨[], [(5, [])]⟩ true rfl

/-! ## C3 — in-memory subscriber dedup and renewal -/

/-- The `(subaccount, namespaces, want_data)` triple equality underlying
`is_same`. -/
def SameTriple (a b : Subscription) : Prop :=
  a.subaccount = b.subaccount ∧ a.namespaces = b.namespaces ∧
    a.want_data = b.want_data

theorem is_same_iff (a b : Subscription) :
    a.is_same b = true ↔ SameTriple a b := by
  simp [Subscription.is_same, SameTriple]

theorem sameTriple_refl (a : Subscription) : SameTriple a a := ⟨rfl, rfl, rfl⟩

theorem sameTriple_symm {a b : Subscription} (h : SameTriple a b) :
    SameTriple b a := ⟨h.1.symm, h.2.1.symm, h.2.2.symm⟩

theorem sameTriple_trans {a b c : Subscription} (h : SameTriple a b)
    (h' : SameTriple b c) : SameTriple a c :=
  ⟨h.1.trans h'.1, h.2.1.trans h'.2.1, h.2.2.trans h'.2.2⟩

theorem is_same_update (a b : Subscription) (ts : Int) (g : Nat) :
    a.is_same { b with sig := g, sig_ts := ts } = a.is_same b := by
  simp [Subscription.is_same]

/-- Every member of `mem_upsert subs sub` either shares its triple with a
member of `subs` or is `sub` itself. -/
theorem mem_upsert_mem (subs : List Subscription) (sub : Subscription) :
    ∀ b ∈ mem_upsert subs sub, (∃ r ∈ subs, SameTriple b r) ∨ b = sub := by
  induction subs with
  | nil =>
    intro b hb
    simp only [mem_upsert, List.mem_singleton] at hb
    exact Or.inr hb
  | cons e rest ih =>
    intro b hb
    rw [mem_upsert] at hb
    by_cases h : e.is_same sub
    · rw [if_pos h] at hb
      rcases List.mem_cons.mp hb with hb | hb
      · subst hb
        split
        · exact Or.inl ⟨e, List.mem_cons_self .., ⟨rfl, rfl, rfl⟩⟩
        · exact Or.inl ⟨e, List.mem_cons_self .., sameTriple_refl e⟩
      · exact Or.inl ⟨b, List.mem_cons_of_mem _ hb, sameTriple_refl b⟩
    · rw [if_neg h] at hb
      rcases List.mem_cons.mp hb with hb | hb
      · subst hb
        exact Or.inl ⟨b, List.mem_cons_self .., sameTriple_refl b⟩
      · rcases ih b hb with ⟨r, hr, hbr⟩ | hb
        · exact Or.inl ⟨r, List.mem_cons_of_mem _ hr, hbr⟩
        · exact Or.inr hb

/-- `mem_upsert` preserves pairwise triple-distinctness. -/
theorem mem_upsert_distinct (subs : List Subscription) (sub : Subscription)
    (hd : List.Pairwise (fun a b => a.is_same b = false) subs) :
    List.Pairwise (fun a b => a.is_same b = false) (mem_upsert subs sub) := by
  induction subs with
  | nil => simp [mem_upsert]
  | cons e rest ih =>
    rw [mem_upsert]
    rcases List.pairwise_cons.mp hd with ⟨he, hrest⟩
    by_cases h : e.is_same sub
    · rw [if_pos h]
      refine List.pairwise_cons.mpr ⟨?_, hrest⟩
      intro b hb
      split
      · rw [is_same_update]
        exact he b hb
      · exact he b hb
    · rw [if_neg h]
      refine List.pairwise_cons.mpr ⟨?_, ih hrest⟩
      intro b hb
      rcases mem_upsert_mem rest sub b hb with ⟨r, hr, hbr⟩ | hb
      · by_contra hcon
        rw [Bool.not_eq_false, is_same_iff] at hcon
        have h1 : SameTriple e r := sameTriple_trans hcon hbr
        rw [← is_same_iff e r] at h1
        simp [he r hr] at h1
      · subst hb
        simp only [Bool.not_eq_true] at h
        exact h

/-- When no entry matches, `mem_upsert` appends. -/
theorem mem_upsert_notfound (subs : List Subscription) (sub : Subscription)
    (h : ∀ e ∈ subs, e.is_same sub = false) :
    mem_upsert subs sub = subs ++ [sub] := by
  induction subs with
  | nil => rfl
  | cons e rest ih =>
    rw [mem_upsert, if_neg ?_, ih]
    · rfl
    · intro b hb
      exact h b (List.mem_cons_of_mem _ hb)
    · simp [h e (List.mem_cons_self ..)]

/-- When a matching entry exists and the incoming timestamp is not strictly
newer, `mem_upsert` leaves the list unchanged. -/
theorem mem_upsert_stale (subs : List Subscription) (sub : Subscription)
    (hd : List.Pairwise (fun a b => a.is_same b = false) subs) :
    ∀ e ∈ subs, e.is_same sub = true → sub.sig_ts ≤ e.sig_ts →
      mem_upsert subs sub = subs := by
  induction subs with
  | nil => intro e he; cases he
  | cons f rest ih =>
    intro e he hsame hle
    rcases List.pairwise_cons.mp hd with ⟨hf, hrest⟩
    rw [mem_upsert]
    by_cases h : f.is_same sub
    · have hef : e = f := by
        rcases List.mem_cons.mp he with he | he
        · exact he
        · exfalso
          have : SameTriple f e :=
            sameTriple_trans ((is_same_iff f sub).mp h)
              (sameTriple_symm ((is_same_iff e sub).mp hsame))
          have hne := hf e he
          rw [← is_same_iff f e] at this
          simp [this] at hne
      subst hef
      rw [if_pos h, if_neg (by omega)]
    · have hef : e ∈ rest := by
        rcases List.mem_cons.mp he with he | he
        · subst he; simp [hsame] at h
        · exact he
      rw [if_neg h, ih hrest e hef hsame hle]

/-- When a matching entry exists and the incoming timestamp is strictly
newer, `mem_upsert` replaces exactly that entry's signature data. -/
theorem mem_upsert_newer (subs : List Subscription) (sub : Subscription)
    (hd : List.Pairwise (fun a b => a.is_same b = false) subs) :
    ∀ e ∈ subs, e.is_same sub = true → e.sig_ts < sub.sig_ts →
      mem_upsert subs sub = subs.map fun f =>
        if f.is_same sub then { f with sig := sub.sig, sig_ts := sub.sig_ts }
        else f := by
  induction subs with
  | nil => intro e he; cases he
  | cons f rest ih =>
    intro e he hsame hlt
    rcases List.pairwise_cons.mp hd with ⟨hf, hrest⟩
    rw [mem_upsert, List.map_cons]
    by_cases h : f.is_same sub
    · have hef : e = f := by
        rcases List.mem_cons.mp he with he | he
        · exact he
        · exfalso
          have : SameTriple f e :=
            sameTriple_trans ((is_same_iff f sub).mp h)
              (sameTriple_symm ((is_same_iff e sub).mp hsame))
          have hne := hf e he
          rw [← is_same_iff f e] at this
          simp [this] at hne
      subst hef
      rw [if_pos h, if_pos (by omega), if_pos h]
      have hall : ∀ r ∈ rest, ¬(r.is_same sub = true) := by
        intro r hr hcon
        have : SameTriple e r :=
          sameTriple_trans ((is_same_iff e sub).mp h)
            (sameTriple_symm ((is_same_iff r sub).mp hcon))
        have hne := hf r hr
        rw [← is_same_iff e r] at this
        simp [this] at hne
      have : rest.map (fun f => if f.is_same sub then
          { f with sig := sub.sig, sig_ts := sub.sig_ts } else f) = rest := by
        rw [List.map_congr_left (g := id) ?_, List.map_id]
        intro r hr
        simp [hall r hr]
      rw [this]
    · have hef : e ∈ rest := by
        rcases List.mem_cons.mp he with he | he
        · subst he; simp [hsame] at h
        · exact he
      rw [if_neg h, ih hrest e hef hsame hlt, if_neg h]

/-- C3: after the in-memory phase of `add_subscription` (and, identically,
the per-row dedupe of `load_saved_subscriptions`), the account's
subscription list holds at most one entry per distinct
`(subaccount, namespaces, want_data)` triple; an incoming subscription with
the same triple replaces only the stored `sig` and `sig_ts`, and only when
its `sig_ts` is strictly newer — otherwise the list is unchanged — and a
subscription with a fresh triple is appended. -/
theorem add_subscription_in_memory (subs : List Subscription)
    (sub : Subscription)
    (hd : List.Pairwise (fun a b => a.is_same b = false) subs) :
    List.Pairwise (fun a b => a.is_same b = false) (mem_upsert subs sub) ∧
    ((∀ e ∈ subs, e.is_same sub = false) →
      mem_upsert subs sub = subs ++ [sub]) ∧
    (∀ e ∈ subs, e.is_same sub = true → sub.sig_ts ≤ e.sig_ts →
      mem_upsert subs sub = subs) ∧
    (∀ e ∈ subs, e.is_same sub = true → e.sig_ts < sub.sig_ts →
      mem_upsert subs sub = subs.map fun f =>
        if f.is_same sub then { f with sig := sub.sig, sig_ts := sub.sig_ts }
        else f) :=
  ⟨mem_upsert_distinct subs sub hd, mem_upsert_notfound subs sub,
    mem_upsert_stale subs sub hd, mem_upsert_newer subs sub hd⟩

/-- Witness for C3: a stale renewal (older `sig_ts`, same triple) leaves the
stored entry untouched. -/
theorem add_subscription_in_memory_witness :
    mem_upsert [⟨none, [1], false, 5, 100⟩] ⟨none, [1], false, 3, 200⟩
      = [⟨none, [1], false, 5, 100⟩] :=
  (add_subscription_in_memory [⟨none, [1], false, 5, 100⟩]
    ⟨none, [1], false, 3, 200⟩ (by decide)).2.2.1
    ⟨none, [1], false, 5, 100⟩ (by decide) (by decide) (by decide)

/-! ## C4 — the `covers` relation -/

theorem ns_covers_refl (l : List Int) : ns_covers l l = true := by
  induction l with
  | nil => rfl
  | cons a t ih => simp [ns_covers, ih]

/-- On strictly ascending lists the two-pointer walk decides exactly list
containment. -/
theorem ns_covers_iff (a b : List Int) (ha : List.Pairwise (· < ·) a)
    (hb : List.Pairwise (· < ·) b) :
    ns_covers a b = true ↔ ∀ x ∈ b, x ∈ a := by
  induction a generalizing b with
  | nil =>
    cases b with
    | nil => simp [ns_covers]
    | cons u us =>
      simp only [ns_covers, Bool.false_eq_true, false_iff]
      intro hcon
      exact absurd (hcon u (List.mem_cons_self ..)) (List.not_mem_nil u)
  | cons h t ih =>
    cases b with
    | nil => simp [ns_covers]
    | cons u us =>
      rcases List.pairwise_cons.mp ha with ⟨hh, ht⟩
      rcases List.pairwise_cons.mp hb with ⟨hu, hus⟩
      by_cases hgt : h > u
      · simp only [ns_covers, if_pos hgt, Bool.false_eq_true, false_iff]
        intro hcon
        rcases List.mem_cons.mp (hcon u (List.mem_cons_self ..)) with he | he
        · omega
        · exact absurd (hh u he) (by omega)
      · by_cases heq : h = u
        · simp only [ns_covers, if_neg hgt, if_pos heq, ih us ht hus]
          constructor
          · intro hsub x hx
            rcases List.mem_cons.mp hx with hx | hx
            · subst hx; subst heq; exact List.mem_cons_self ..
            · exact List.mem_cons_of_mem _ (hsub x hx)
          · intro hsub x hx
            rcases List.mem_cons.mp (hsub x (List.mem_cons_of_mem _ hx)) with hh' | hh'
            · exfalso
              subst hh'
              subst heq
              exact absurd (hu x hx) (by omega)
            · exact hh'
        · have hlt : h < u := lt_of_le_of_ne (not_lt.mp hgt) heq
          simp only [ns_covers, if_neg hgt, if_neg heq, ih (u :: us) ht hb]
          constructor
          · intro hsub x hx
            exact List.mem_cons_of_mem _ (hsub x hx)
          · intro hsub x hx
            rcases List.mem_cons.mp (hsub x hx) with hh' | hh'
            · exfalso
              rcases List.mem_cons.mp hx with hx' | hx'
              · omega
              · have := hu x hx'
                omega
            · exact hh'

/-- C4 counterexample: the claim characterizes `covers(other)` as requiring
`want_data → other.want_data`; the code requires the converse
(`other.want_data && !want_data` fails), so a want-data subscription covers
an otherwise-identical no-data one — the claimed biconditional is false
here. -/
theorem covers_want_data_cex :
    Subscription.covers ⟨none, [1], true, 1, 0⟩ ⟨none, [1], false, 1, 0⟩
      = true ∧
    (⟨none, [1], true, 1, 0⟩ : Subscription).want_data = true ∧
    (⟨none, [1], false, 1, 0⟩ : Subscription).want_data = false :=
  ⟨by decide, rfl, rfl⟩

/-- C4 (amended): on subscriptions with strictly ascending namespace lists
(the only ones the constructor admits), `covers` is reflexive and
transitive, and `A.covers B` holds exactly when the subaccounts match,
`B.want_data` implies `A.want_data`, and `A`'s namespace list contains
every namespace of `B`. -/
theorem covers_preorder (A B C : Subscription)
    (hA : List.Pairwise (· < ·) A.namespaces)
    (hB : List.Pairwise (· < ·) B.namespaces)
    (hC : List.Pairwise (· < ·) C.namespaces) :
    A.covers A = true ∧
    (A.covers B = true → B.covers C = true → A.covers C = true) ∧
    (A.covers B = true ↔
      A.subaccount = B.subaccount ∧
      (B.want_data = true → A.want_data = true) ∧
      ∀ n ∈ B.namespaces, n ∈ A.namespaces) := by
  have hchar : ∀ (X Y : Subscription), List.Pairwise (· < ·) X.namespaces →
      List.Pairwise (· < ·) Y.namespaces →
      (X.covers Y = true ↔
        X.subaccount = Y.subaccount ∧
        (Y.want_data = true → X.want_data = true) ∧
        ∀ n ∈ Y.namespaces, n ∈ X.namespaces) := by
    intro X Y hX hY
    unfold Subscription.covers
    by_cases hsa : X.subaccount = Y.subaccount
    · by_cases hwd : Y.want_data = true ∧ ¬X.want_data = true
      · simp [hsa, hwd.1, hwd.2]
      · rw [if_neg (by simp [hsa]), if_neg (by simpa using hwd),
          ns_covers_iff _ _ hX hY]
        simp only [hsa, true_and, iff_and_self]
        intro _ hy
        by_cases hx : X.want_data = true
        · exact hx
        · exact absurd ⟨hy, hx⟩ hwd
    · simp [Subscription.covers, hsa]
  refine ⟨?_, ?_, hchar A B hA hB⟩
  · rw [hchar A A hA hA]
    exact ⟨rfl, fun h => h, fun n hn => hn⟩
  · intro hab hbc
    rw [hchar A B hA hB] at hab
    rw [hchar B C hB hC] at hbc
    rw [hchar A C hA hC]
    exact ⟨hab.1.trans hbc.1, fun h => hab.2.1 (hbc.2.1 h),
      fun n hn => hab.2.2 n (hbc.2.2 n hn)⟩

/-- Witness for C4 (amended): reflexivity and the characterization at
concrete subscriptions. -/
theorem covers_preorder_witness :
    Subscription.covers ⟨none, [1, 2], true, 1, 0⟩ ⟨none, [1, 2], true, 1, 0⟩
      = true :=
  (covers_preorder ⟨none, [1, 2], true, 1, 0⟩ ⟨none, [1], false, 1, 0⟩
    ⟨none, [1], false, 1, 0⟩ (by decide) (by decide) (by decide)).1

/-! ## C1 — at-most-once-per-rotation notification dedup -/

theorem notif_step_rotateAt (lifetime t fp : Nat) (reg : Bool)
    (s : FilterState) :
    (notif_step lifetime t fp reg s).1.rotateAt =
      if s.rotateAt <= t then t + lifetime else s.rotateAt := by
  simp only [notif_step]
  split_ifs <;> simp_all

theorem notif_step_rotated (lifetime t fp : Nat) (reg : Bool)
    (s : FilterState) :
    (notif_step lifetime t fp reg s).2.2 = decide (s.rotateAt <= t) := by
  simp only [notif_step]
  split_ifs <;> simp_all

/-- While the fingerprint sits in the active filter and no rotation fires,
every notification for it is suppressed and the state does not change. -/
theorem notif_run_in_filter (lifetime fp : Nat) (evs : List (Nat × Bool)) :
    ∀ s : FilterState, fp ∈ s.filter →
    (∀ e ∈ evs, e.1 < s.rotateAt) →
    (notif_run lifetime fp evs s).2.1 = 0 ∧
    (notif_run lifetime fp evs s).1 = s := by
  induction evs with
  | nil => intro s _ _; exact ⟨rfl, rfl⟩
  | cons ev rest ih =>
    intro s hmem htimes
    obtain ⟨t, reg⟩ := ev
    have ht : ¬ s.rotateAt <= t :=
      Nat.not_le.mpr (htimes (t, reg) (List.mem_cons_self ..))
    have hstep : notif_step lifetime t fp reg s = (s, false, false) := by
      simp [notif_step, ht, hmem]
    have hrest := ih s hmem (fun e he => htimes e (List.mem_cons_of_mem _ he))
    simp only [notif_run, hstep]
    simp [hrest.1, hrest.2]

/-- Per-fingerprint push budget: pushes never exceed rotations plus one,
the extra push being available only while the fingerprint is absent from
the active filter. -/
theorem notif_run_push_le (lifetime fp : Nat) (evs : List (Nat × Bool)) :
    ∀ s : FilterState,
    (notif_run lifetime fp evs s).2.1 ≤ (notif_run lifetime fp evs s).2.2 +
      (if fp ∈ s.filter then 0 else 1) := by
  induction evs with
  | nil => intro s; simp [notif_run]
  | cons ev rest ih =>
    intro s
    obtain ⟨t, reg⟩ := ev
    by_cases hrot : s.rotateAt <= t
    · by_cases hmem : fp ∈ s.filter
      · have hstep : notif_step lifetime t fp reg s
            = (⟨[], s.filter, t + lifetime⟩, false, true) := by
          simp [notif_step, hrot, hmem]
        have hih := ih ⟨[], s.filter, t + lifetime⟩
        simp only [notif_run, hstep]
        simp [hmem] at hih ⊢
        omega
      · cases reg with
        | true =>
          have hstep : notif_step lifetime t fp true s
              = (⟨[fp], s.filter, t + lifetime⟩, true, true) := by
            simp [notif_step, hrot, hmem]
          have hih := ih ⟨[fp], s.filter, t + lifetime⟩
          simp only [notif_run, hstep]
          simp [hmem] at hih ⊢
          omega
        | false =>
          have hstep : notif_step lifetime t fp false s
              = (⟨[fp], s.filter, t + lifetime⟩, false, true) := by
            simp [notif_step, hrot, hmem]
          have hih := ih ⟨[fp], s.filter, t + lifetime⟩
          simp only [notif_run, hstep]
          simp [hmem] at hih ⊢
          omega
    · by_cases hmem : fp ∈ s.rotate ∨ fp ∈ s.filter
      · have hstep : notif_step lifetime t fp reg s = (s, false, false) := by
          simp only [notif_step]
          rw [if_neg hrot, if_pos hmem, decide_eq_false hrot]
        have hih := ih s
        simp only [notif_run, hstep]
        simp at hih ⊢
        omega
      · push_neg at hmem
        obtain ⟨hm1, hm2⟩ := hmem
        cases reg with
        | true =>
          have hstep : notif_step lifetime t fp true s
              = ({ s with filter := fp :: s.filter }, true, false) := by
            simp [notif_step, hrot, hm1, hm2]
          have hih := ih { s with filter := fp :: s.filter }
          simp only [notif_run, hstep]
          simp [hm2] at hih ⊢
          omega
        | false =>
          have hstep : notif_step lifetime t fp false s
              = ({ s with filter := fp :: s.filter }, false, false) := by
            simp [notif_step, hrot, hm1, hm2]
          have hih := ih { s with filter := fp :: s.filter }
          simp only [notif_run, hstep]
          simp [hm2] at hih ⊢
          omega

/-! ## C2 — nearest-swarm selection -/

theorem usub_eq (a b : Nat) (ha : a < R64) (hb : b < R64) :
    usub a b = if b ≤ a then a - b else a + R64 - b := by
  have hR : (0 : Nat) < R64 := by norm_num [R64]
  unfold usub
  split_ifs with h
  · have h2 : a + R64 - b = (a - b) + R64 := by omega
    rw [h2, Nat.add_mod_right]
    exact Nat.mod_eq_of_lt (by omega)
  · exact Nat.mod_eq_of_lt (by omega)

theorem usub_self (a : Nat) : usub a a = 0 := by
  unfold usub
  rw [Nat.add_sub_cancel_left, Nat.mod_self]

theorem sorted_head_le (h : Nat) (t : List Nat)
    (hs : List.Pairwise (· ≤ ·) (h :: t)) : ∀ a ∈ h :: t, h ≤ a := by
  intro a ha
  rcases List.mem_cons.mp ha with rfl | ha
  · exact le_refl a
  · exact (List.pairwise_cons.mp hs).1 a ha

theorem sorted_headD_le (l : List Nat) (d : Nat)
    (hs : List.Pairwise (· ≤ ·) l) : ∀ a ∈ l, l.headD d ≤ a := by
  cases l with
  | nil => simp
  | cons h t =>
    intro a ha
    rw [List.headD_cons]
    exact sorted_head_le h t hs a ha

theorem headD_mem (l : List Nat) (d : Nat) (h : l ≠ []) : l.headD d ∈ l := by
  cases l with
  | nil => cases h rfl
  | cons a t => simp

theorem getLastD_mem (l : List Nat) (d : Nat) (h : l ≠ []) :
    l.getLastD d ∈ l := by
  induction l generalizing d with
  | nil => cases h rfl
  | cons a t ih =>
    rw [List.getLastD_cons]
    cases t with
    | nil => simp [List.getLastD]
    | cons b u => exact List.mem_cons_of_mem _ (ih a (by simp))

theorem sorted_le_getLastD (l : List Nat) (d : Nat)
    (hs : List.Pairwise (· ≤ ·) l) : ∀ a ∈ l, a ≤ l.getLastD d := by
  induction l generalizing d with
  | nil => simp
  | cons h t ih =>
    rw [List.getLastD_cons]
    intro a ha
    rcases List.pairwise_cons.mp hs with ⟨hh, ht⟩
    rcases List.mem_cons.mp ha with rfl | ha
    · cases t with
      | nil => simp [List.getLastD]
      | cons b u => exact hh _ (getLastD_mem (b :: u) a (by simp))
    · exact ih h ht a ha

theorem takeWhile_lt (l : List Nat) (x : Nat) :
    ∀ a ∈ l.takeWhile (fun e => decide (e < x)), a < x := by
  intro a ha
  simpa using List.mem_takeWhile_imp ha

theorem sorted_dropWhile_ge (l : List Nat) (x : Nat)
    (hs : List.Pairwise (· ≤ ·) l) :
    ∀ b ∈ l.dropWhile (fun e => decide (e < x)), x ≤ b := by
  induction l with
  | nil => simp
  | cons a t ih =>
    rcases List.pairwise_cons.mp hs with ⟨ha, ht⟩
    rw [List.dropWhile_cons]
    by_cases h : a < x
    · rw [if_pos (by simpa using h)]
      exact ih ht
    · rw [if_neg (by simpa using h)]
      intro b hb
      rcases List.mem_cons.mp hb with rfl | hb
      · omega
      · have := ha b hb
        omega

/-- `swarm_right` is the element with the smallest upward (clockwise)
wrapping distance from `x`. -/
theorem swarm_right_min (l : List Nat) (x : Nat)
    (hs : List.Pairwise (· ≤ ·) l) (hbound : ∀ e ∈ l, e < R64) (hx : x < R64)
    (hne : l ≠ []) :
    swarm_right l x ∈ l ∧ ∀ e ∈ l, usub (swarm_right l x) x ≤ usub e x := by
  have hsplit := List.takeWhile_append_dropWhile (fun e => decide (e < x)) l
  have hB_ge := sorted_dropWhile_ge l x hs
  have hA_lt := takeWhile_lt l x
  cases hB : l.dropWhile (fun e => decide (e < x)) with
  | nil =>
    have hAeq : l.takeWhile (fun e => decide (e < x)) = l := by
      rw [hB, List.append_nil] at hsplit
      exact hsplit
    have hall : ∀ e ∈ l, e < x := by
      intro e he
      exact hA_lt e (by rw [hAeq]; exact he)
    have hr : swarm_right l x = l.headD 0 := by
      unfold swarm_right
      rw [hB]
      rfl
    rw [hr]
    have hmem := headD_mem l 0 hne
    refine ⟨hmem, ?_⟩
    intro e he
    have h1 : l.headD 0 ≤ e := sorted_headD_le l 0 hs e he
    have hb1 := hbound _ hmem
    have hb2 := hbound e he
    have he1 := hall e he
    have he2 := hall _ hmem
    rw [usub_eq _ x hb1 hx, usub_eq e x hb2 hx, if_neg (by omega),
      if_neg (by omega)]
    omega
  | cons b B' =>
    have hbB : b ∈ l.dropWhile (fun e => decide (e < x)) := by
      rw [hB]
      exact List.mem_cons_self ..
    have hbmem : b ∈ l := (List.dropWhile_sublist _).subset hbB
    have hxb : x ≤ b := hB_ge b hbB
    have hr : swarm_right l x = b := by
      unfold swarm_right
      rw [hB]
      rfl
    rw [hr]
    refine ⟨hbmem, ?_⟩
    intro e he
    have hb1 := hbound b hbmem
    have hb2 := hbound e he
    by_cases hcase : e < x
    · rw [usub_eq b x hb1 hx, usub_eq e x hb2 hx, if_pos (by omega),
        if_neg (by omega)]
      omega
    · have heB : e ∈ l.dropWhile (fun e => decide (e < x)) := by
        rw [← hsplit] at he
        rcases List.mem_append.mp he with h | h
        · exact absurd (hA_lt e h) hcase
        · exact h
      have hsB : List.Pairwise (· ≤ ·) (b :: B') := by
        rw [← hB]
        exact List.Pairwise.sublist (List.dropWhile_sublist _) hs
      have hbe : b ≤ e := sorted_head_le b B' hsB e (by rw [← hB]; exact heB)
      rw [usub_eq b x hb1 hx, usub_eq e x hb2 hx, if_pos (by omega),
        if_pos (by omega)]
      omega

/-- `swarm_left` is the element with the smallest downward (counter-
clockwise) wrapping distance from `x`, among elements other than `x`
itself. -/
theorem swarm_left_min (l : List Nat) (x : Nat)
    (hs : List.Pairwise (· ≤ ·) l) (hbound : ∀ e ∈ l, e < R64) (hx : x < R64)
    (hne : l ≠ []) :
    swarm_left l x ∈ l ∧
    ∀ e ∈ l, e ≠ x → usub x (swarm_left l x) ≤ usub x e := by
  have hsplit := List.takeWhile_append_dropWhile (fun e => decide (e < x)) l
  have hB_ge := sorted_dropWhile_ge l x hs
  have hA_lt := takeWhile_lt l x
  cases hA : l.takeWhile (fun e => decide (e < x)) with
  | nil =>
    have hBeq : l.dropWhile (fun e => decide (e < x)) = l := by
      rw [hA, List.nil_append] at hsplit
      exact hsplit
    have hall : ∀ e ∈ l, x ≤ e := by
      intro e he
      exact hB_ge e (by rw [hBeq]; exact he)
    have hl : swarm_left l x = l.getLastD 0 := by
      unfold swarm_left
      rw [hA]
      simp
    rw [hl]
    have hmem := getLastD_mem l 0 hne
    refine ⟨hmem, ?_⟩
    intro e he hex
    have h1 : e ≤ l.getLastD 0 := sorted_le_getLastD l 0 hs e he
    have hb1 := hbound _ hmem
    have hb2 := hbound e he
    have hxe : x ≤ e := hall e he
    have hxl : x ≤ l.getLastD 0 := hall _ hmem
    rw [usub_eq x _ hx hb1, usub_eq x e hx hb2]
    split_ifs <;> omega
  | cons a A' =>
    cases hB : l.dropWhile (fun e => decide (e < x)) with
    | nil =>
      have hAeq : l.takeWhile (fun e => decide (e < x)) = l := by
        rw [hB, List.append_nil] at hsplit
        exact hsplit
      have hall : ∀ e ∈ l, e < x := by
        intro e he
        exact hA_lt e (by rw [hAeq]; exact he)
      have hl : swarm_left l x = l.getLastD 0 := by
        unfold swarm_left
        rw [hB]
        simp
      rw [hl]
      have hmem := getLastD_mem l 0 hne
      refine ⟨hmem, ?_⟩
      intro e he hex
      have h1 : e ≤ l.getLastD 0 := sorted_le_getLastD l 0 hs e he
      have hb1 := hbound _ hmem
      have hb2 := hbound e he
      have he1 := hall e he
      have he2 := hall _ hmem
      rw [usub_eq x _ hx hb1, usub_eq x e hx hb2, if_pos (by omega),
        if_pos (by omega)]
      omega
    | cons b B' =>
      have hl : swarm_left l x = (a :: A').getLastD 0 := by
        unfold swarm_left
        rw [hA, hB]
        simp
      rw [hl]
      have hlA : (a :: A').getLastD 0 ∈ l.takeWhile (fun e => decide (e < x)) := by
        rw [hA]
        exact getLastD_mem _ 0 (by simp)
      have hmem : (a :: A').getLastD 0 ∈ l :=
        (List.takeWhile_sublist _).subset hlA
      have hllt : (a :: A').getLastD 0 < x := hA_lt _ hlA
      refine ⟨hmem, ?_⟩
      intro e he hex
      have hb1 := hbound _ hmem
      have hb2 := hbound e he
      by_cases hcase : e < x
      · have heA : e ∈ l.takeWhile (fun e => decide (e < x)) := by
          rw [← hsplit] at he
          rcases List.mem_append.mp he with h | h
          · exact h
          · exact absurd (hB_ge e h) (by omega)
        have hsA : List.Pairwise (· ≤ ·) (a :: A') := by
          rw [← hA]
          exact List.Pairwise.sublist (List.takeWhile_sublist _) hs
        have hle : e ≤ (a :: A').getLastD 0 :=
          sorted_le_getLastD _ 0 hsA e (by rw [← hA]; exact heA)
        rw [usub_eq x _ hx hb1, usub_eq x e hx hb2, if_pos (by omega),
          if_pos (by omega)]
        omega
      · rw [usub_eq x _ hx hb1, usub_eq x e hx hb2, if_pos (by omega),
          if_neg (by omega)]
        omega

/-- When `x` itself is a swarm id, `swarm_right` picks it and its upward
distance is zero. -/
theorem swarm_right_self (l : List Nat) (x : Nat)
    (hs : List.Pairwise (· ≤ ·) l) (hxl : x ∈ l) :
    swarm_right l x = x := by
  have hsplit := List.takeWhile_append_dropWhile (fun e => decide (e < x)) l
  have hB_ge := sorted_dropWhile_ge l x hs
  have hA_lt := takeWhile_lt l x
  cases hB : l.dropWhile (fun e => decide (e < x)) with
  | nil =>
    exfalso
    have hAeq : l.takeWhile (fun e => decide (e < x)) = l := by
      rw [hB, List.append_nil] at hsplit
      exact hsplit
    exact absurd (hA_lt x (by rw [hAeq]; exact hxl)) (lt_irrefl x)
  | cons b B' =>
    have hbB : b ∈ l.dropWhile (fun e => decide (e < x)) := by
      rw [hB]
      exact List.mem_cons_self ..
    have hxb : x ≤ b := hB_ge b hbB
    have hxB : x ∈ l.dropWhile (fun e => decide (e < x)) := by
      rw [← hsplit] at hxl
      rcases List.mem_append.mp hxl with h | h
      · exact absurd (hA_lt x h) (lt_irrefl x)
      · exact h
    have hsB : List.Pairwise (· ≤ ·) (b :: B') := by
      rw [← hB]
      exact List.Pairwise.sublist (List.dropWhile_sublist _) hs
    have hbx : b ≤ x := sorted_head_le b B' hsB x (by rw [← hB]; exact hxB)
    have hr : swarm_right l x = b := by
      unfold swarm_right
      rw [hB]
      rfl
    omega

/-- On a nonempty list, `update_swarm_closest` is the right/left selector
(the singleton arm agrees with it since both candidates are that element). -/
theorem update_swarm_closest_eq_selector (l : List Nat) (x : Nat)
    (hne : l ≠ []) :
    update_swarm_closest l x =
      if usub (swarm_right l x) x < usub x (swarm_left l x)
      then swarm_right l x else swarm_left l x := by
  cases l with
  | nil => cases hne rfl
  | cons a t =>
    cases t with
    | nil =>
      have hr : swarm_right [a] x = a := by
        unfold swarm_right
        rw [List.dropWhile_cons]
        split_ifs <;> rfl
      have hl : swarm_left [a] x = a := by
        unfold swarm_left
        rw [List.takeWhile_cons, List.dropWhile_cons]
        split_ifs <;> simp [List.getLastD]
      rw [show update_swarm_closest [a] x = a from rfl, hr, hl, ite_self]
    | cons b u => rfl

/-- C2 counterexample: with sorted ids `[10, 30]` and `swarm_space = 20`
the two wrapping distances tie (both 10); the code (`dright < dleft ?
*right_it : *left_it`) picks the predecessor `10`, while the claim's tie
rule ("ties prefer the greater-or-equal id") demands the lower-bound
element `30`. -/
theorem update_swarm_tie_cex :
    update_swarm_closest [10, 30] 20 = 10 ∧
    swarm_right [10, 30] 20 = 30 ∧
    swarm_left [10, 30] 20 = 10 ∧
    usub (swarm_right [10, 30] 20) 20 = usub 20 (swarm_left [10, 30] 20) := by
  refine ⟨by decide, by decide, by decide, by decide⟩

/-- C2 (amended): on a sorted swarm-id list, `update_swarm` selects the id
minimizing unsigned circular distance to `swarm_space`: the empty list
yields `INVALID_SWARM_ID`, a single-element list yields that element, and
otherwise the smallest id `≥ swarm_space` (wrapping to the first if none)
is compared against its predecessor (wrapping to the last) by the two
unsigned-subtraction distances, picking the smaller — with ties preferring
the predecessor (the less-than side), not the greater-or-equal id. -/
theorem update_swarm_selects_closest (ids : List Nat) (x : Nat)
    (hs : List.Pairwise (· ≤ ·) ids) (hbound : ∀ e ∈ ids, e < R64)
    (hx : x < R64) :
    (ids = [] → update_swarm_closest ids x = INVALID_SWARM_ID) ∧
    (∀ a, ids = [a] → update_swarm_closest ids x = a) ∧
    (ids ≠ [] → update_swarm_closest ids x ∈ ids ∧
      ∀ e ∈ ids, circular_dist x (update_swarm_closest ids x)
        ≤ circular_dist x e) ∧
    (2 ≤ ids.length →
      update_swarm_closest ids x =
        if usub (swarm_right ids x) x < usub x (swarm_left ids x)
        then swarm_right ids x else swarm_left ids x) := by
  refine ⟨?_, ?_, ?_, ?_⟩
  · rintro rfl
    rfl
  · rintro a rfl
    rfl
  · intro hne
    obtain ⟨hrmem, hrmin⟩ := swarm_right_min ids x hs hbound hx hne
    obtain ⟨hlmem, hlmin⟩ := swarm_left_min ids x hs hbound hx hne
    rw [update_swarm_closest_eq_selector ids x hne]
    constructor
    · split_ifs
      · exact hrmem
      · exact hlmem
    · intro e he
      have k1 := hrmin e he
      by_cases hex : e = x
      · subst hex
        have k3 : swarm_right ids e = e := swarm_right_self ids e hs he
        have k4 : usub e e = 0 := usub_self e
        rw [k3]
        simp only [circular_dist, k4]
        split_ifs with hcmp <;> omega
      · have k2 := hlmin e he hex
        simp only [circular_dist]
        split_ifs with hcmp <;> omega
  · intro h2
    cases ids with
    | nil => simp at h2
    | cons a t =>
      cases t with
      | nil => simp at h2
      | cons b u => rfl

/-- Witness for C2 (amended) on the spec's reshuffle scenario list. -/
theorem update_swarm_selects_closest_witness :
    update_swarm_closest [100, 1000, 2 ^ 64 - 100] 50 ∈
        ([100, 1000, 2 ^ 64 - 100] : List Nat) ∧
    ∀ e ∈ ([100, 1000, 2 ^ 64 - 100] : List Nat),
      circular_dist 50 (update_swarm_closest [100, 1000, 2 ^ 64 - 100] 50)
        ≤ circular_dist 50 e :=
  (update_swarm_selects_closest [100, 1000, 2 ^ 64 - 100] 50
    (by decide) (by decide) (by decide)).2.2.1 (by decide)

/-! ## C8 — resubscribe queue stays sorted -/

/-- Invariants of the `check_subs` drain loop: the untouched front of the
queue stays sorted, every re-pushed tail entry is due in
`[now + RESUBSCRIBE_MIN, now + RESUBSCRIBE_MAX]`, and whenever anything was
re-pushed the request body has grown past its initial 1 byte. -/
theorem check_subs_drain_spec (fast : Bool) (now : Nat)
    (allSubs : Nat → Option (List Subscription))
    (encSize : Subscription → Nat) (rng : Nat → Nat)
    (hrng : ∀ i, RESUBSCRIBE_MIN ≤ rng i ∧ rng i ≤ RESUBSCRIBE_MAX)
    (hsubs : ∀ a sl, allSubs a = some sl → sl ≠ [])
    (hsz : ∀ sub, 0 < encSize sub) :
    ∀ (q : List QEntry) (size : Nat) (app : List QEntry) (n : Nat),
    DueSorted q →
    (∀ e ∈ app,
      now + RESUBSCRIBE_MIN ≤ e.due ∧ e.due ≤ now + RESUBSCRIBE_MAX) →
    1 ≤ size →
    (app ≠ [] → 2 ≤ size) →
    DueSorted (check_subs_drain fast now allSubs encSize rng q size app n).1 ∧
    (∀ e ∈ (check_subs_drain fast now allSubs encSize rng q size app n).2.1,
      now + RESUBSCRIBE_MIN ≤ e.due ∧ e.due ≤ now + RESUBSCRIBE_MAX) ∧
    ((check_subs_drain fast now allSubs encSize rng q size app n).2.1 ≠ [] →
      2 ≤ (check_subs_drain fast now allSubs encSize rng q size app n).2.2) := by
  intro q
  induction q with
  | nil =>
    intro size app n hq happ h1 h2
    exact ⟨List.Pairwise.nil, happ, h2⟩
  | cons e rest ih =>
    intro size app n hq happ h1 h2
    have hqrest : DueSorted rest := (List.pairwise_cons.mp hq).2
    obtain ⟨acct, due⟩ := e
    simp only [check_subs_drain]
    by_cases hlim : ¬ size < SUBS_REQUEST_LIMIT
    · rw [if_pos hlim]
      exact ⟨hq, happ, h2⟩
    · rw [if_neg hlim]
      by_cases hdue : due > now
      · rw [if_pos hdue]
        exact ⟨hq, happ, h2⟩
      · rw [if_neg hdue]
        by_cases hfast : fast = true ∧ due > 0
        · rw [if_pos hfast]
          exact ⟨hq, happ, h2⟩
        · rw [if_neg hfast]
          split
          · exact ih size app n hqrest happ h1 h2
          · split
            · exact ih size app n hqrest happ h1 h2
            · rename_i a hx subs hsome
              have hsum : 1 ≤ (subs.map encSize).sum := by
                cases hsubsnn : subs with
                | nil => exact absurd hsubsnn (hsubs a subs hsome)
                | cons sb ss =>
                  have := hsz sb
                  simp [hsubsnn]
                  omega
              refine ih (size + (subs.map encSize).sum)
                (app ++ [⟨some a, now + rng n⟩]) (n + 1) hqrest ?_
                (by omega) (fun _ => by omega)
              intro q hqmem
              rcases List.mem_append.mp hqmem with hqmem | hqmem
              · exact happ q hqmem
              · rcases List.mem_singleton.mp hqmem with rfl
                have := hrng n
                exact ⟨by simp; omega, by simp; omega⟩

/-- C8 counterexample: with the subscription map sending account `1` to an
*empty* subscription list, `check_subs` re-pushes account `1` at the tail
with a fresh random due time but then hits the `req_body.size() == 1` early
return, skipping the re-sort: the queue comes out unsorted even though it
was sorted on entry (and the drawn delay `2700 s` is a legal
`[RESUBSCRIBE_MIN, RESUBSCRIBE_MAX]` draw). -/
theorem check_subs_queue_unsorted_cex :
    DueSorted [(⟨some 1, 0⟩ : QEntry), ⟨some 2, 13200⟩] ∧
    RESUBSCRIBE_MIN ≤ 2700 ∧ 2700 ≤ RESUBSCRIBE_MAX ∧
    check_subs_queue true false false 10000
      (fun a => if a = 1 then some [] else none) (fun _ => 1) (fun _ => 2700)
      [⟨some 1, 0⟩, ⟨some 2, 13200⟩] = [⟨some 2, 13200⟩, ⟨some 1, 12700⟩] ∧
    ¬ DueSorted (check_subs_queue true false false 10000
      (fun a => if a = 1 then some [] else none) (fun _ => 1) (fun _ => 2700)
      [⟨some 1, 0⟩, ⟨some 2, 13200⟩]) := by
  refine ⟨by decide, by decide, by decide, by decide, by decide⟩

/-- C8 (amended): for every queue sorted ascending by due time, any
connected state and `initial`/`fast` flags, and any subscription map whose
present accounts carry at least one subscription — as `HiveMind` maintains
for `subscribers_` — after `check_subs` the queue is again sorted ascending
by due time (given that every random delay lies in
`[RESUBSCRIBE_MIN, RESUBSCRIBE_MAX]` and every encoded subscription dict is
nonempty, both true of the real code). -/
theorem check_subs_queue_sorted (connected ini fast : Bool) (now : Nat)
    (allSubs : Nat → Option (List Subscription))
    (encSize : Subscription → Nat) (rng : Nat → Nat) (queue : List QEntry)
    (hq : DueSorted queue)
    (hrng : ∀ i, RESUBSCRIBE_MIN ≤ rng i ∧ rng i ≤ RESUBSCRIBE_MAX)
    (hsubs : ∀ a sl, allSubs a = some sl → sl ≠ [])
    (hsz : ∀ sub, 0 < encSize sub) :
    DueSorted
      (check_subs_queue connected ini fast now allSubs encSize rng queue) := by
  simp only [check_subs_queue]
  by_cases hc : connected = false
  · rw [if_pos hc]
    exact hq
  · rw [if_neg hc]
    obtain ⟨hr1, hr2, hr3⟩ := check_subs_drain_spec fast now allSubs encSize
      rng hrng hsubs hsz queue 1 [] 0 hq (by simp) (le_refl 1) (by simp)
    set r := check_subs_drain fast now allSubs encSize rng queue 1 [] 0
      with hrdef
    by_cases hsize : r.2.2 = 1
    · rw [if_pos hsize]
      have hempty : r.2.1 = [] := by
        by_contra hne
        have := hr3 hne
        omega
      rw [hempty, List.append_nil]
      exact hr1
    · rw [if_neg hsize]
      refine (List.pairwise_append).mpr ⟨?_, ?_, ?_⟩
      · exact List.Pairwise.sublist (List.takeWhile_sublist _) hr1
      · exact List.sorted_insertionSort qle _
      · intro a ha b hb
        have ha1 : a.due < now + RESUBSCRIBE_MIN := by
          have := List.mem_takeWhile_imp ha
          simpa using this
        rw [List.mem_insertionSort] at hb
        rcases List.mem_append.mp hb with hb | hb
        · have hsplit := List.takeWhile_append_dropWhile
            (fun e : QEntry => decide (e.due < now + RESUBSCRIBE_MIN)) r.1
          exact (List.pairwise_append.mp
            (by rw [hsplit]; exact hr1)).2.2 a ha b hb
        · have := (hr2 b hb).1
          unfold qle
          omega

/-- Witness for C8 (amended): a concrete drain through the re-sort path
ends sorted. -/
theorem check_subs_queue_sorted_witness :
    DueSorted (check_subs_queue true false false 10000
      (fun a => if a = 1 then some [⟨none, [1], false, 5, 0⟩] else none)
      (fun _ => 1) (fun _ => 2700) [⟨some 1, 0⟩, ⟨some 2, 13200⟩]) :=
  check_subs_queue_sorted true false false 10000
    (fun a => if a = 1 then some [⟨none, [1], false, 5, 0⟩] else none)
    (fun _ => 1) (fun _ => 2700) [⟨some 1, 0⟩, ⟨some 2, 13200⟩]
    (by decide)
    (by
      intro i
      constructor
      · norm_num [RESUBSCRIBE_MIN]
      · norm_num [RESUBSCRIBE_MIN, RESUBSCRIBE_MAX])
    (by
      intro a sl h
      by_cases ha : a = 1
      · simp [ha] at h
        intro hnil
        rw [hnil] at h
        simp at h
      · simp [ha] at h)
    (by
      intro sub
      norm_num)

/-- No rotation fires while every event is strictly earlier than the armed
rotation time. -/
theorem notif_run_rot_zero (lifetime fp : Nat) (evs : List (Nat × Bool)) :
    ∀ s : FilterState, (∀ e ∈ evs, e.1 < s.rotateAt) →
    (notif_run lifetime fp evs s).2.2 = 0 := by
  induction evs with
  | nil => intro s _; rfl
  | cons ev rest ih =>
    intro s htimes
    obtain ⟨t, reg⟩ := ev
    have ht : ¬ s.rotateAt <= t :=
      Nat.not_le.mpr (htimes (t, reg) (List.mem_cons_self ..))
    have hr : (notif_step lifetime t fp reg s).2.2 = false := by
      rw [notif_step_rotated, decide_eq_false ht]
    have hA : (notif_step lifetime t fp reg s).1.rotateAt = s.rotateAt := by
      rw [notif_step_rotateAt, if_neg ht]
    have hrest := ih (notif_step lifetime t fp reg s).1
      (fun e he => by rw [hA]; exact htimes e (List.mem_cons_of_mem _ he))
    simp only [notif_run, hr, hrest]
    simp

/-- At most one rotation fires over a monotone event stream confined to the
current window plus one lifetime (two consecutive rotation windows). -/
theorem notif_run_rot_le_one (lifetime fp : Nat) (evs : List (Nat × Bool)) :
    ∀ s : FilterState,
    List.Pairwise (· ≤ ·) (evs.map Prod.fst) →
    (∀ e ∈ evs, e.1 < s.rotateAt + lifetime) →
    (notif_run lifetime fp evs s).2.2 ≤ 1 := by
  induction evs with
  | nil => intro s _ _; simp [notif_run]
  | cons ev rest ih =>
    intro s hmono htimes
    obtain ⟨t, reg⟩ := ev
    rw [List.map_cons, List.pairwise_cons] at hmono
    obtain ⟨hle, hmono'⟩ := hmono
    by_cases hrot : s.rotateAt <= t
    · have hA : (notif_step lifetime t fp reg s).1.rotateAt = t + lifetime := by
        rw [notif_step_rotateAt, if_pos hrot]
      have hz := notif_run_rot_zero lifetime fp rest
        (notif_step lifetime t fp reg s).1 ?_
      · have hr : (notif_step lifetime t fp reg s).2.2 = true := by
          rw [notif_step_rotated, decide_eq_true hrot]
        simp only [notif_run, hr, hz]
        simp
      · intro e he
        rw [hA]
        have h1 : e.1 < s.rotateAt + lifetime :=
          htimes e (List.mem_cons_of_mem _ he)
        have h2 : t ≤ e.1 := hle e.1 (List.mem_map_of_mem Prod.fst he)
        omega
    · have hr : (notif_step lifetime t fp reg s).2.2 = false := by
        rw [notif_step_rotated, decide_eq_false hrot]
      have hA : (notif_step lifetime t fp reg s).1.rotateAt = s.rotateAt := by
        rw [notif_step_rotateAt, if_neg hrot]
      have hrest := ih (notif_step lifetime t fp reg s).1 hmono'
        (fun e he => by rw [hA]; exact htimes e (List.mem_cons_of_mem _ he))
      simp only [notif_run, hr]
      simpa using hrest

/-- C1: for a stream of notifications carrying one fixed
`(service, svcid, hash)` triple (fingerprint `fp`), arriving in time order
with the service registered, starting from a state whose filters do not yet
hold the fingerprint: if the whole stream falls inside the current rotation
window, exactly one `notifier.push` is sent; if it spans at most the current
window plus one further lifetime (two consecutive rotation windows), at most
two are sent. -/
theorem notification_dedup (lifetime : Nat) (s : FilterState) (fp : Nat)
    (evs : List (Nat × Bool))
    (hfresh : fp ∉ s.filter ∧ fp ∉ s.rotate)
    (hreg : ∀ e ∈ evs, e.2 = true)
    (hmono : List.Pairwise (· ≤ ·) (evs.map Prod.fst)) :
    (evs ≠ [] → (∀ e ∈ evs, e.1 < s.rotateAt) →
      (notif_run lifetime fp evs s).2.1 = 1) ∧
    ((∀ e ∈ evs, e.1 < s.rotateAt + lifetime) →
      (notif_run lifetime fp evs s).2.1 ≤ 2) := by
  constructor
  · intro hne htimes
    cases evs with
    | nil => exact absurd rfl hne
    | cons ev rest =>
      obtain ⟨t, reg⟩ := ev
      have hregt : reg = true := hreg (t, reg) (List.mem_cons_self ..)
      subst hregt
      have ht : ¬ s.rotateAt <= t :=
        Nat.not_le.mpr (htimes (t, true) (List.mem_cons_self ..))
      have hstep : notif_step lifetime t fp true s
          = ({ s with filter := fp :: s.filter }, true, false) := by
        simp [notif_step, ht, hfresh.1, hfresh.2]
      have hrest := notif_run_in_filter lifetime fp rest
        { s with filter := fp :: s.filter } (List.mem_cons_self ..)
        (fun e he => htimes e (List.mem_cons_of_mem _ he))
      simp only [notif_run, hstep]
      simp [hrest.1]
  · intro htimes
    have h1 := notif_run_push_le lifetime fp evs s
    rw [if_neg hfresh.1] at h1
    have h2 := notif_run_rot_le_one lifetime fp evs s hmono htimes
    omega

/-- Witness for C1: two same-triple notifications inside one window produce
exactly one push (and at most two across the extended window). -/
theorem notification_dedup_witness :
    (notif_run 10 7 [(0, true), (1, true)] ⟨[], [], 10⟩).2.1 = 1 ∧
    (notif_run 10 7 [(0, true), (1, true)] ⟨[], [], 10⟩).2.1 ≤ 2 := by
  have h := notification_dedup 10 ⟨[], [], 10⟩ 7 [(0, true), (1, true)]
    (by decide) (by decide) (by decide)
  exact ⟨h.1 (by decide) (by decide), h.2 (by decide)⟩

end Spns
